import Mathlib

/-!
Verification of the shake_ranges range-composition core.

The repository ships src/enumerate_range.hpp (the enumerate adaptor) and
src/unit_tests.hpp (the self-tests). The remaining headers (range.hpp,
index_range.hpp, combine_range.hpp, step_range.hpp, transform_range.hpp,
any_range.hpp) are declared by the spec and exercised by the tests but are
not present under src/, so their behaviour is modelled from the spec, with
the tests in src/unit_tests.hpp as the authority wherever they speak.

The Iteration Protocol (spec section 4.1) is embedded as a record of a
begin position, an end position, and the three position operations:
advance, dereference and equality. Traversal is fuel-bounded, because an
arbitrary protocol instance need not terminate.
-/

/-- Modelled from the spec: the Iteration Protocol of section 4.1, shared by
every range and adaptor. A range produces a begin position and an end
position; a position supports advance, dereference and equality. All
traversal state lives in the position. -/
structure RangeM (σ α : Type) where
  startPos : σ
  endPos : σ
  advance : σ → σ
  deref : σ → α
  equals : σ → σ → Bool

/-- Fuel-bounded traversal of a range starting at a given position:
stop when the current position equals the end position, otherwise yield
the dereferenced element and advance. This is the for-each loop of the
tests, written as a function. -/
def RangeM.iterFrom (r : RangeM σ α) : Nat → σ → List α
  | 0, _ => []
  | fuel + 1, p =>
    if r.equals p r.endPos then []
    else r.deref p :: r.iterFrom fuel (r.advance p)

/-- The element sequence produced by iterating a range from its begin
position, with the given fuel bound. -/
def RangeM.toList (r : RangeM σ α) (fuel : Nat) : List α :=
  r.iterFrom fuel r.startPos

/-- Fuel-bounded count of advances from a position until it equals the end
position: the model of std::distance(begin, end). -/
def RangeM.countFrom (r : RangeM σ α) : Nat → σ → Nat
  | 0, _ => 0
  | fuel + 1, p =>
    if r.equals p r.endPos then 0
    else r.countFrom fuel (r.advance p) + 1

/-- std::distance(std::begin(r), std::end(r)), as used eagerly by
enumerate in src/enumerate_range.hpp line 16. -/
def distance (r : RangeM σ α) (fuel : Nat) : Nat :=
  r.countFrom fuel r.startPos

/-- Modelled from the spec: index_range.hpp is absent from src/. Section
4.2: range(n) produces positions 0, 1, ..., n-1; dereference returns the
integer by value; terminal when position equals n. -/
def range (n : Nat) : RangeM Nat Nat :=
  { startPos := 0
    endPos := n
    advance := (· + 1)
    deref := id
    equals := (· == ·) }

/-- Modelled from the spec and tests: range.hpp is absent from src/. The
overload range(container) / const_range(container) is a borrowing view over
the elements of a container; a position is an iterator offset from begin.
The tests in src/unit_tests.hpp (test_combine_range, test_modifying_enumerate)
show it dereferences to the container elements themselves. -/
def containerRange [Inhabited α] (xs : List α) : RangeM Nat α :=
  { startPos := 0
    endPos := xs.length
    advance := (· + 1)
    deref := fun i => xs.getD i default
    equals := (· == ·) }

/-- const_range(container), the read-only container view used by
test_simple_enumerate; it traverses the same element sequence. -/
def const_range [Inhabited α] (xs : List α) : RangeM Nat α :=
  containerRange xs

/-- Modelled from the spec: combine_range.hpp is absent from src/. Section
4.4, instantiated at two base ranges: a position is the pair of base
positions; advance moves both in lock-step; dereference builds the pair of
base dereferences; two positions are equal when ANY corresponding pair of
base positions is equal. -/
def combine (r₁ : RangeM σ₁ α₁) (r₂ : RangeM σ₂ α₂) :
    RangeM (σ₁ × σ₂) (α₁ × α₂) :=
  { startPos := (r₁.startPos, r₂.startPos)
    endPos := (r₁.endPos, r₂.endPos)
    advance := fun p => (r₁.advance p.1, r₂.advance p.2)
    deref := fun p => (r₁.deref p.1, r₂.deref p.2)
    equals := fun p q => r₁.equals p.1 q.1 || r₂.equals p.2 q.2 }

/-- Modelled from the spec: combine_range.hpp is absent from src/. The
variadic combine of section 4.4 instantiated at three base ranges, with the
same any-pair-equal rule. -/
def combine3 (r₁ : RangeM σ₁ α₁) (r₂ : RangeM σ₂ α₂) (r₃ : RangeM σ₃ α₃) :
    RangeM (σ₁ × σ₂ × σ₃) (α₁ × α₂ × α₃) :=
  { startPos := (r₁.startPos, r₂.startPos, r₃.startPos)
    endPos := (r₁.endPos, r₂.endPos, r₃.endPos)
    advance := fun p => (r₁.advance p.1, r₂.advance p.2.1, r₃.advance p.2.2)
    deref := fun p => (r₁.deref p.1, r₂.deref p.2.1, r₃.deref p.2.2)
    equals := fun p q =>
      r₁.equals p.1 q.1 || r₂.equals p.2.1 q.2.1 || r₃.equals p.2.2 q.2.2 }

/-- Modelled from the spec: step_range.hpp is absent from src/. Section
4.3: advance of a step position calls the base advance up to stride times,
stopping early, without dereferencing, the moment the base position reaches
the base end. -/
def stepAdvancePos (r : RangeM σ α) : Nat → σ → σ
  | 0, p => p
  | k + 1, p =>
    if r.equals p r.endPos then p
    else stepAdvancePos r k (r.advance p)

/-- Modelled from the spec: step_range.hpp is absent from src/. Section
4.3: a step range wraps the base range; dereference delegates to the base
position, equality compares the wrapped base positions, advance strides. -/
def stepRange (base : RangeM σ α) (stride : Nat) : RangeM σ α :=
  { startPos := base.startPos
    endPos := base.endPos
    advance := stepAdvancePos base stride
    deref := base.deref
    equals := base.equals }

/-- Modelled from the spec: the error kinds of section 7. -/
inductive RangeError : Type
  | invalidArgument
  deriving DecidableEq, Repr

/-- Modelled from the spec: step_range.hpp is absent from src/. The
step(base_range, stride) entry point: stride below 1 fails immediately at
construction with InvalidArgument (section 7); stride at least 1 builds the
step range. -/
def step (base : RangeM σ α) (stride : Int) :
    Except RangeError (RangeM σ α) :=
  if stride < 1 then Except.error RangeError.invalidArgument
  else Except.ok (stepRange base stride.toNat)

/-- Modelled from the spec: transform_range.hpp is absent from src/.
Section 4.5: the function is stored by the range and shared by every
position; dereference applies it to the base dereference each time, with no
caching; advance and equality delegate to the base position. -/
def transform (base : RangeM σ α) (fn : α → β) : RangeM σ β :=
  { startPos := base.startPos
    endPos := base.endPos
    advance := base.advance
    deref := fun p => fn (base.deref p)
    equals := base.equals }

/-- enumerate, from src/enumerate_range.hpp lines 12-18: compute size once,
eagerly, as the distance from begin to end of the input range, then return
combine(range(size), input_range). The fuel bounds the distance
computation. -/
def enumerate (input_range : RangeM σ α) (fuel : Nat) :
    RangeM (Nat × σ) (Nat × α) :=
  let size := distance input_range fuel
  combine (range size) input_range

/-- The composition stated by the spec in its own words, section 4.7:
enumerate(range) = combine(range(size(range)), range), with size the
eagerly computed begin-to-end distance. -/
def enumerate_spec (input_range : RangeM σ α) (fuel : Nat) :
    RangeM (Nat × σ) (Nat × α) :=
  combine (range (distance input_range fuel)) input_range

/-- Modelled from the spec: any_range.hpp is absent from src/. Section
4.8: an Any Range boxes one concrete range, hiding its position type and
exposing only the element type. The boxed state type is existential. -/
structure AnyRange (α : Type) : Type 1 where
  St : Type
  rng : RangeM St α

/-- make_any_range boxes a concrete range behind the erased handle. -/
def make_any_range (r : RangeM σ α) : AnyRange α :=
  { St := σ, rng := r }

/-- The erased handle itself satisfies the Iteration Protocol: it exposes
begin, end, advance, dereference and equality over its boxed position
type, so it can be iterated or composed further. -/
def AnyRange.toRange (a : AnyRange α) : RangeM a.St α :=
  a.rng

/-- Iterating an Any Range through its erased protocol. -/
def AnyRange.toList (a : AnyRange α) (fuel : Nat) : List α :=
  a.toRange.toList fuel

/-- The element triples of three lists paired positionally, truncated at
the shortest list. -/
def zip3 : List α → List β → List γ → List (α × β × γ)
  | a :: as, b :: bs, c :: cs => (a, b, c) :: zip3 as bs cs
  | _, _, _ => []

/-- The elements of xs at indices 0, k, 2k, ... strictly below the length
of xs, written with an explicit descent counter. -/
def takeEveryAux [Inhabited α] (xs : List α) (k : Nat) : Nat → Nat → List α
  | 0, _ => []
  | f + 1, i =>
    if i < xs.length then xs.getD i default :: takeEveryAux xs k f (i + k)
    else []

/-- The elements of xs at indices 0, k, 2k, ... strictly below the length
of xs: the sequence the spec promises for step(range(xs), k). -/
def takeEvery [Inhabited α] (xs : List α) (k : Nat) : List α :=
  takeEveryAux xs k xs.length 0

/-- The loop body of test_modifying_enumerate, written as explicit state
passing: traverse the positions of combine(range(size), range(v)), and at
each position write upd index element through the element reference of the
second tuple field, i.e. update the vector at the base iterator offset.
sz is the eagerly computed index-range size, len the fixed end offset of
the container iterator. -/
def enumMutateFrom [Inhabited α] (upd : Nat → α → α) (sz len : Nat) :
    Nat → Nat × Nat → List α → List α
  | 0, _, v => v
  | f + 1, p, v =>
    if p.1 == sz || p.2 == len then v
    else enumMutateFrom upd sz len f (p.1 + 1, p.2 + 1)
      (v.set p.2 (upd p.1 (v.getD p.2 default)))

/-- Enumerating a mutable sequence and assigning through the paired
reference: size is computed eagerly by enumerate, then the traversal writes
each element in place. -/
def enumMutate [Inhabited α] (upd : Nat → α → α) (xs : List α) (fuel : Nat) :
    List α :=
  enumMutateFrom upd (distance (containerRange xs) fuel) xs.length fuel
    (0, 0) xs

/-! ## Traversal lemmas -/

/-- Traversing an index range from position i yields i, i+1, ..., n-1. -/
theorem iterFrom_range_eq (n : Nat) :
    ∀ (fuel i : Nat), i ≤ n → n - i ≤ fuel →
      (range n).iterFrom fuel i = List.range' i (n - i) := by
  intro fuel
  induction fuel with
  | zero =>
    intro i _ hf
    have h0 : n - i = 0 := by omega
    simp [RangeM.iterFrom, h0]
  | succ fuel ih =>
    intro i hi hf
    by_cases h : i = n
    · subst h
      simp [RangeM.iterFrom, range]
    · have hne : (i == n) = false := by simp [h]
      have hsub : n - i = (n - (i + 1)) + 1 := by omega
      rw [hsub, List.range'_succ]
      simp only [RangeM.iterFrom, range, hne, Bool.false_eq_true, if_false, id]
      exact congrArg _ (ih (i + 1) (by omega) (by omega))

/-- Iterating range(n) with enough fuel yields exactly 0, 1, ..., n-1. -/
theorem toList_range (n fuel : Nat) (h : n ≤ fuel) :
    (range n).toList fuel = List.range n := by
  have := iterFrom_range_eq n fuel 0 (Nat.zero_le n) (by omega)
  simpa [RangeM.toList, range, List.range_eq_range'] using this

/-- Traversing a container view from offset i yields the elements from
index i on. -/
theorem iterFrom_container_eq [Inhabited α] (xs : List α) :
    ∀ (fuel i : Nat), i ≤ xs.length → xs.length - i ≤ fuel →
      (containerRange xs).iterFrom fuel i = xs.drop i := by
  intro fuel
  induction fuel with
  | zero =>
    intro i hi hf
    have h0 : xs.length ≤ i := by omega
    simp [RangeM.iterFrom, List.drop_eq_nil_of_le h0]
  | succ fuel ih =>
    intro i hi hf
    by_cases h : i = xs.length
    · subst h
      simp [RangeM.iterFrom, containerRange, List.drop_eq_nil_of_le]
    · have hlt : i < xs.length := by omega
      have hcond : (containerRange xs).equals i (containerRange xs).endPos = false := by
        simp [containerRange, h]
      rw [List.drop_eq_getElem_cons hlt]
      simp only [RangeM.iterFrom, hcond, Bool.false_eq_true, if_false]
      have hd : (containerRange xs).deref i = xs[i] :=
        List.getD_eq_getElem xs default hlt
      rw [hd]
      exact congrArg _ (ih (i + 1) (by omega) (by omega))

/-- Iterating a container view with enough fuel yields exactly the
container elements. -/
theorem toList_container [Inhabited α] (xs : List α) (fuel : Nat)
    (h : xs.length ≤ fuel) :
    (containerRange xs).toList fuel = xs := by
  simpa [RangeM.toList, containerRange] using
    iterFrom_container_eq xs fuel 0 (Nat.zero_le _) (by omega)

/-- The model of std::distance on a container view counts the remaining
elements. -/
theorem countFrom_container [Inhabited α] (xs : List α) :
    ∀ (fuel i : Nat), i ≤ xs.length → xs.length - i ≤ fuel →
      (containerRange xs).countFrom fuel i = xs.length - i := by
  intro fuel
  induction fuel with
  | zero =>
    intro i _ hf
    have h0 : xs.length - i = 0 := by omega
    simp [RangeM.countFrom, h0]
  | succ fuel ih =>
    intro i hi hf
    by_cases h : i = xs.length
    · subst h
      simp [RangeM.countFrom, containerRange]
    · have hcond : (containerRange xs).equals i (containerRange xs).endPos = false := by
        simp [containerRange, h]
      simp only [RangeM.countFrom, hcond, Bool.false_eq_true, if_false]
      rw [show (containerRange xs).advance i = i + 1 from rfl,
        ih (i + 1) (by omega) (by omega)]
      omega

/-- The eager size computed by enumerate on a container view is the
container length. -/
theorem distance_container [Inhabited α] (xs : List α) (fuel : Nat)
    (h : xs.length ≤ fuel) :
    distance (containerRange xs) fuel = xs.length := by
  have := countFrom_container xs fuel 0 (Nat.zero_le _) (by omega)
  simpa [distance, containerRange] using this

/-- A range whose begin position equals its end position has distance 0. -/
theorem distance_of_empty (r : RangeM σ α) (fuel : Nat)
    (h : r.equals r.startPos r.endPos = true) :
    distance r fuel = 0 := by
  cases fuel with
  | zero => simp [distance, RangeM.countFrom]
  | succ fuel => simp [distance, RangeM.countFrom, h]

/-- Combined traversal is the positional zip of the two base traversals:
the any-pair-equal stopping rule truncates at the first base that reaches
its end, exactly as zip truncates at the shorter list. -/
theorem combine_iterFrom_zip (r₁ : RangeM σ₁ α₁) (r₂ : RangeM σ₂ α₂) :
    ∀ (fuel : Nat) (p : σ₁) (q : σ₂),
      (combine r₁ r₂).iterFrom fuel (p, q) =
        (r₁.iterFrom fuel p).zip (r₂.iterFrom fuel q) := by
  intro fuel
  induction fuel with
  | zero => intro p q; simp [RangeM.iterFrom]
  | succ fuel ih =>
    intro p q
    by_cases h₁ : r₁.equals p r₁.endPos
    · simp [RangeM.iterFrom, combine, h₁]
    · by_cases h₂ : r₂.equals q r₂.endPos
      · simp [RangeM.iterFrom, combine, h₁, h₂]
      · simp only [RangeM.iterFrom, combine, h₁, h₂, Bool.or_false,
          Bool.false_eq_true, if_false, List.zip_cons_cons]
        exact congrArg _ (ih (r₁.advance p) (r₂.advance q))

/-- Ternary combined traversal is the positional three-way zip. -/
theorem combine3_iterFrom_zip3 (r₁ : RangeM σ₁ α₁) (r₂ : RangeM σ₂ α₂)
    (r₃ : RangeM σ₃ α₃) :
    ∀ (fuel : Nat) (p : σ₁) (q : σ₂) (s : σ₃),
      (combine3 r₁ r₂ r₃).iterFrom fuel (p, q, s) =
        zip3 (r₁.iterFrom fuel p) (r₂.iterFrom fuel q) (r₃.iterFrom fuel s) := by
  intro fuel
  induction fuel with
  | zero => intro p q s; simp [RangeM.iterFrom, zip3]
  | succ fuel ih =>
    intro p q s
    by_cases h₁ : r₁.equals p r₁.endPos
    · simp [RangeM.iterFrom, combine3, h₁, zip3]
    · by_cases h₂ : r₂.equals q r₂.endPos
      · simp [RangeM.iterFrom, combine3, h₁, h₂, zip3]
      · by_cases h₃ : r₃.equals s r₃.endPos
        · simp [RangeM.iterFrom, combine3, h₁, h₂, h₃, zip3]
        · simp only [RangeM.iterFrom, combine3, h₁, h₂, h₃, Bool.or_false,
            Bool.false_eq_true, if_false, zip3]
          exact congrArg _ (ih (r₁.advance p) (r₂.advance q) (r₃.advance s))

/-- The three-way zip truncates at the shortest list. -/
theorem zip3_length (as : List α) :
    ∀ (bs : List β) (cs : List γ),
      (zip3 as bs cs).length = min as.length (min bs.length cs.length) := by
  induction as with
  | nil => intro bs cs; simp [zip3]
  | cons a as ih =>
    intro bs cs
    cases bs with
    | nil => simp [zip3]
    | cons b bs =>
      cases cs with
      | nil => simp [zip3]
      | cons c cs =>
        simp only [zip3, List.length_cons, ih]
        omega

/-- A step advance from a position already at the end is the identity: the
base is never advanced nor dereferenced past its end. -/
theorem stepAdvancePos_at_end (r : RangeM σ α) (k : Nat) (p : σ)
    (h : r.equals p r.endPos = true) : stepAdvancePos r k p = p := by
  cases k with
  | zero => rfl
  | succ k => simp [stepAdvancePos, h]

/-- On a container view, a step advance from offset i moves to offset
i + k, capped at the container length. -/
theorem stepAdvancePos_container [Inhabited α] (xs : List α) :
    ∀ (k i : Nat), i ≤ xs.length →
      stepAdvancePos (containerRange xs) k i = min (i + k) xs.length := by
  intro k
  induction k with
  | zero =>
    intro i hi
    simp [stepAdvancePos]
    omega
  | succ k ih =>
    intro i hi
    by_cases h : i = xs.length
    · have hcond : (containerRange xs).equals i (containerRange xs).endPos = true := by
        simp [containerRange, h]
      rw [stepAdvancePos_at_end _ _ _ hcond]
      omega
    · have hcond : (containerRange xs).equals i (containerRange xs).endPos = false := by
        simp [containerRange, h]
      simp only [stepAdvancePos, hcond, Bool.false_eq_true, if_false]
      rw [show (containerRange xs).advance i = i + 1 from rfl,
        ih (i + 1) (by omega)]
      omega

/-- Traversing a stepped container view from a capped offset yields the
elements at offsets i, i+k, i+2k, ... below the length. -/
theorem step_iterFrom_eq [Inhabited α] (xs : List α) (k : Nat) :
    ∀ (fuel i : Nat),
      (stepRange (containerRange xs) k).iterFrom fuel (min i xs.length) =
        takeEveryAux xs k fuel i := by
  intro fuel
  induction fuel with
  | zero => intro i; simp [RangeM.iterFrom, takeEveryAux]
  | succ fuel ih =>
    intro i
    by_cases h : i < xs.length
    · have hmin : min i xs.length = i := by omega
      have hcond : (stepRange (containerRange xs) k).equals i
          (stepRange (containerRange xs) k).endPos = false := by
        simp [stepRange, containerRange]
        omega
      rw [hmin]
      simp only [RangeM.iterFrom, hcond, Bool.false_eq_true, if_false,
        takeEveryAux, h, if_true]
      have hadv : (stepRange (containerRange xs) k).advance i =
          min (i + k) xs.length := stepAdvancePos_container xs k i (by omega)
      rw [show (stepRange (containerRange xs) k).deref i = xs.getD i default
          from rfl, hadv]
      exact congrArg _ (ih (i + k))
    · have hmin : min i xs.length = xs.length := by omega
      have hcond : (stepRange (containerRange xs) k).equals xs.length
          (stepRange (containerRange xs) k).endPos = true := by
        simp [stepRange, containerRange]
      rw [hmin]
      simp only [RangeM.iterFrom, hcond, if_true, takeEveryAux, h, if_false]

/-- The descent counter of takeEveryAux does not matter once it is at
least the number of remaining offsets. -/
theorem takeEveryAux_stable [Inhabited α] (xs : List α) (k : Nat) (hk : 1 ≤ k) :
    ∀ (f f' i : Nat), xs.length - i ≤ f → xs.length - i ≤ f' →
      takeEveryAux xs k f i = takeEveryAux xs k f' i := by
  intro f
  induction f with
  | zero =>
    intro f' i hf hf'
    have h : ¬ i < xs.length := by omega
    cases f' with
    | zero => rfl
    | succ f' => simp [takeEveryAux, h]
  | succ f ih =>
    intro f' i hf hf'
    cases f' with
    | zero =>
      have h : ¬ i < xs.length := by omega
      simp [takeEveryAux, h]
    | succ f' =>
      by_cases h : i < xs.length
      · simp only [takeEveryAux, h, if_true]
        exact congrArg _ (ih f' (i + k) (by omega) (by omega))
      · simp [takeEveryAux, h]

/-- Reading every offset of a list back in order reproduces the list. -/
theorem map_getD_range [Inhabited α] (v : List α) :
    (List.range v.length).map (fun m => v.getD m default) = v := by
  apply List.ext_getElem
  · simp
  · intro i h1 h2
    simp only [List.getElem_map]
    rw [List.getElem_range, List.getD_eq_getElem v default h2]

/-- Once the write offset has passed the whole list, the keep-or-update
map keeps every element, reproducing the list. -/
theorem map_keep_of_le [Inhabited α] (v : List α) (upd : Nat → α → α)
    (j : Nat) (hj : v.length ≤ j) :
    (List.range v.length).map
      (fun m => if m < j then v.getD m default else upd m (v.getD m default)) = v := by
  have hcongr : ∀ m ∈ List.range v.length,
      (if m < j then v.getD m default else upd m (v.getD m default)) =
        v.getD m default := by
    intro m hm
    have hmv : m < v.length := List.mem_range.mp hm
    have hmj : m < j := by omega
    simp [hmj]
  rw [List.map_congr_left hcongr, map_getD_range]

/-- The writing traversal from the lock-step position pair (j, j) updates
exactly the elements at offsets j and beyond, leaving earlier elements as
they stand. -/
theorem enumMutateFrom_eq [Inhabited α] (upd : Nat → α → α) (len : Nat) :
    ∀ (f j : Nat) (v : List α), v.length = len → j ≤ len → len - j ≤ f →
      enumMutateFrom upd len len f (j, j) v =
        (List.range len).map
          (fun m => if m < j then v.getD m default
            else upd m (v.getD m default)) := by
  intro f
  induction f with
  | zero =>
    intro j v hv hj hf
    simp only [enumMutateFrom]
    rw [← hv, map_keep_of_le v upd j (by omega)]
  | succ f ih =>
    intro j v hv hj hf
    by_cases h : j = len
    · have hc : ((j == len) || (j == len)) = true := by simp [h]
      simp only [enumMutateFrom, hc, if_true]
      rw [← hv, map_keep_of_le v upd j (by omega)]
    · have hc : ((j == len) || (j == len)) = false := by simp [h]
      have hjlt : j < len := by omega
      simp only [enumMutateFrom, hc, Bool.false_eq_true, if_false]
      have hlen' : (v.set j (upd j (v.getD j default))).length = len := by
        simp [hv]
      rw [ih (j + 1) (v.set j (upd j (v.getD j default))) hlen' (by omega)
        (by omega)]
      apply List.map_congr_left
      intro m hm
      have hmlt : m < len := List.mem_range.mp hm
      rcases Nat.lt_trichotomy m j with hmj | hmj | hmj
      · have h1 : m < j + 1 := by omega
        have hne : j ≠ m := by omega
        simp [hmj, h1, List.getD_eq_getElem?_getD, List.getElem?_set_ne hne]
      · have h1 : m < j + 1 := by omega
        have h2 : ¬ m < j := by omega
        have hjv : j < v.length := by omega
        simp [h1, h2, hmj, List.getD_eq_getElem?_getD,
          List.getElem?_set_self hjv]
      · have h1 : ¬ m < j + 1 := by omega
        have h2 : ¬ m < j := by omega
        have hne : j ≠ m := by omega
        simp [h1, h2, List.getD_eq_getElem?_getD, List.getElem?_set_ne hne]

/-! ## Claim theorems -/

/-- C1: enumerate(X) is the composition combine(range(size), X) with size
the eagerly computed begin-to-end distance, and on a multi-pass container
view both produce the sequence of (index, element) pairs pairing position
m with element m. -/
theorem C1_enumerate_equiv_combine :
    (∀ (σ α : Type) (r : RangeM σ α) (fuel : Nat),
      enumerate r fuel = enumerate_spec r fuel) ∧
    (∀ (α : Type) [Inhabited α] (xs : List α) (f₁ f₂ : Nat),
      xs.length ≤ f₁ → xs.length ≤ f₂ →
      (enumerate (const_range xs) f₁).toList f₂ =
        (List.range xs.length).zip xs) := by
  constructor
  · intro σ α r fuel
    rfl
  · intro α inst xs f₁ f₂ h₁ h₂
    show (combine (range (distance (const_range xs) f₁))
      (const_range xs)).toList f₂ = _
    rw [show distance (const_range xs) f₁ = xs.length from
      distance_container xs f₁ h₁]
    show (combine (range xs.length) (containerRange xs)).iterFrom f₂
      ((range xs.length).startPos, (containerRange xs).startPos) = _
    rw [combine_iterFrom_zip]
    rw [show (range xs.length).iterFrom f₂ (range xs.length).startPos =
      (range xs.length).toList f₂ from rfl]
    rw [show (containerRange xs).iterFrom f₂ (containerRange xs).startPos =
      (containerRange xs).toList f₂ from rfl]
    rw [toList_range xs.length f₂ h₂, toList_container xs f₂ h₂]

/-- C1 witness: enumerating the three-string container of
test_simple_enumerate yields the three (index, element) pairs. -/
theorem C1_witness :
    (enumerate (const_range ["zero", "one", "two"]) 3).toList 3 =
      [(0, "zero"), (1, "one"), (2, "two")] := by
  rw [C1_enumerate_equiv_combine.2 String ["zero", "one", "two"] 3 3
    (by decide) (by decide)]
  rfl

/-- C2: combined traversal pairs elements positionally and yields exactly
min of the input lengths many tuples, with no padding and no error on a
length mismatch: in general it is the zip of the base traversals, and on
container views of two and of three lists it is the (min-length) zip of
the lists. -/
theorem C2_combine_min_length :
    (∀ (σ₁ α₁ σ₂ α₂ : Type) (r₁ : RangeM σ₁ α₁) (r₂ : RangeM σ₂ α₂)
      (fuel : Nat),
      (combine r₁ r₂).toList fuel = (r₁.toList fuel).zip (r₂.toList fuel)) ∧
    (∀ (α β : Type) [Inhabited α] [Inhabited β] (xs : List α) (ys : List β)
      (fuel : Nat), xs.length ≤ fuel → ys.length ≤ fuel →
      (combine (containerRange xs) (containerRange ys)).toList fuel =
        xs.zip ys ∧
      ((combine (containerRange xs) (containerRange ys)).toList fuel).length =
        min xs.length ys.length) ∧
    (∀ (α β γ : Type) [Inhabited α] [Inhabited β] [Inhabited γ]
      (xs : List α) (ys : List β) (zs : List γ) (fuel : Nat),
      xs.length ≤ fuel → ys.length ≤ fuel → zs.length ≤ fuel →
      (combine3 (containerRange xs) (containerRange ys)
          (containerRange zs)).toList fuel = zip3 xs ys zs ∧
      ((combine3 (containerRange xs) (containerRange ys)
          (containerRange zs)).toList fuel).length =
        min xs.length (min ys.length zs.length)) := by
  refine ⟨?_, ?_, ?_⟩
  · intro σ₁ α₁ σ₂ α₂ r₁ r₂ fuel
    exact combine_iterFrom_zip r₁ r₂ fuel r₁.startPos r₂.startPos
  · intro α β instα instβ xs ys fuel hx hy
    have h : (combine (containerRange xs) (containerRange ys)).toList fuel =
        xs.zip ys := by
      show (combine (containerRange xs) (containerRange ys)).iterFrom fuel
        ((containerRange xs).startPos, (containerRange ys).startPos) = _
      rw [combine_iterFrom_zip]
      rw [show (containerRange xs).iterFrom fuel
        (containerRange xs).startPos = (containerRange xs).toList fuel
        from rfl]
      rw [show (containerRange ys).iterFrom fuel
        (containerRange ys).startPos = (containerRange ys).toList fuel
        from rfl]
      rw [toList_container xs fuel hx, toList_container ys fuel hy]
    refine ⟨h, ?_⟩
    rw [h, List.length_zip]
  · intro α β γ instα instβ instγ xs ys zs fuel hx hy hz
    have h : (combine3 (containerRange xs) (containerRange ys)
        (containerRange zs)).toList fuel = zip3 xs ys zs := by
      show (combine3 (containerRange xs) (containerRange ys)
        (containerRange zs)).iterFrom fuel
        ((containerRange xs).startPos, (containerRange ys).startPos,
          (containerRange zs).startPos) = _
      rw [combine3_iterFrom_zip3]
      rw [show (containerRange xs).iterFrom fuel
        (containerRange xs).startPos = (containerRange xs).toList fuel
        from rfl]
      rw [show (containerRange ys).iterFrom fuel
        (containerRange ys).startPos = (containerRange ys).toList fuel
        from rfl]
      rw [show (containerRange zs).iterFrom fuel
        (containerRange zs).startPos = (containerRange zs).toList fuel
        from rfl]
      rw [toList_container xs fuel hx, toList_container ys fuel hy,
        toList_container zs fuel hz]
    refine ⟨h, ?_⟩
    rw [h, zip3_length]

/-- C2 witness: a 3-list paired with a 4-list yields exactly 3 pairs with
no padding, and a ternary combine of lengths 2, 3, 3 yields 2 triples. -/
theorem C2_witness :
    (combine (containerRange [10, 20, 30])
        (containerRange ["a", "b", "c", "d"])).toList 4 =
      [(10, "a"), (20, "b"), (30, "c")] ∧
    ((combine3 (containerRange [1, 2]) (containerRange [5, 6, 7])
        (containerRange [8, 9, 10])).toList 3).length = 2 := by
  constructor
  · rw [(C2_combine_min_length.2.1 Nat String [10, 20, 30]
      ["a", "b", "c", "d"] 4 (by decide) (by decide)).1]
    rfl
  · rw [(C2_combine_min_length.2.2 Nat Nat Nat [1, 2] [5, 6, 7] [8, 9, 10] 3
      (by decide) (by decide) (by decide)).2]
    decide

/-- C3: two combine positions compare equal exactly when at least one
corresponding pair of wrapped base positions compares equal, and this
any-pair-equal rule makes iteration stop after min(m, n) elements when
combining index ranges of lengths m and n. -/
theorem C3_combine_any_pair_equal :
    (∀ (σ₁ α₁ σ₂ α₂ : Type) (r₁ : RangeM σ₁ α₁) (r₂ : RangeM σ₂ α₂)
      (p q : σ₁ × σ₂),
      (combine r₁ r₂).equals p q = true ↔
        (r₁.equals p.1 q.1 = true ∨ r₂.equals p.2 q.2 = true)) ∧
    (∀ (m n fuel : Nat), m ≤ fuel → n ≤ fuel →
      ((combine (range m) (range n)).toList fuel).length = min m n) := by
  constructor
  · intro σ₁ α₁ σ₂ α₂ r₁ r₂ p q
    simp [combine]
  · intro m n fuel hm hn
    have h : (combine (range m) (range n)).toList fuel =
        (List.range m).zip (List.range n) := by
      show (combine (range m) (range n)).iterFrom fuel
        ((range m).startPos, (range n).startPos) = _
      rw [combine_iterFrom_zip]
      rw [show (range m).iterFrom fuel (range m).startPos =
        (range m).toList fuel from rfl]
      rw [show (range n).iterFrom fuel (range n).startPos =
        (range n).toList fuel from rfl]
      rw [toList_range m fuel hm, toList_range n fuel hn]
    rw [h, List.length_zip, List.length_range, List.length_range]

/-- C3 witness: positions (0, 5) and (1, 5) of a combine of range(1) and
range(5) compare equal because the second pair is equal even though the
first is not, and combining range(2) with range(5) yields 2 elements. -/
theorem C3_witness :
    (combine (range 1) (range 5)).equals (0, 5) (1, 5) = true ∧
    ((combine (range 2) (range 5)).toList 5).length = 2 := by
  constructor
  · exact (C3_combine_any_pair_equal.1 Nat Nat Nat Nat (range 1) (range 5)
      (0, 5) (1, 5)).mpr (Or.inr (by decide))
  · rw [C3_combine_any_pair_equal.2 2 5 5 (by decide) (by decide)]
    decide

/-- C4 counterexample: on the container of contents 5, 6, 7, the view
range(container) yields the elements 5, 6, 7, not the index sequence
0, 1, 2 that range(size(container)) yields, so the two are not the same
sequence as the claim states. -/
theorem C4_counterexample :
    ¬ ((containerRange [5, 6, 7]).toList 3 =
        (range (([5, 6, 7] : List Nat)).length).toList 3) := by
  decide

/-- C4 (amended): iterating range(n) yields exactly 0, 1, ..., n-1 in
increasing order, so the traversal has length n; range(container) yields
the container's element sequence; and a size-zero input yields an empty
range whose begin position equals its end position. -/
theorem C4_range_yields_indices :
    ∀ (n fuel : Nat), n ≤ fuel →
      ((range n).toList fuel = List.range n ∧
        ((range n).toList fuel).length = n) ∧
      (∀ (α : Type) [Inhabited α] (xs : List α) (f₂ : Nat),
        xs.length ≤ f₂ → (containerRange xs).toList f₂ = xs) ∧
      (range 0).equals (range 0).startPos (range 0).endPos = true := by
  intro n fuel h
  refine ⟨⟨toList_range n fuel h, ?_⟩, ?_, by decide⟩
  · rw [toList_range n fuel h, List.length_range]
  · intro α inst xs f₂ hx
    exact toList_container xs f₂ hx

/-- C4 witness: range(10) yields the ten digits in order, and the
container view of a two-element list yields its elements. -/
theorem C4_witness :
    ((range 10).toList 10 = [0, 1, 2, 3, 4, 5, 6, 7, 8, 9] ∧
      ((range 10).toList 10).length = 10) ∧
    (containerRange [7, 8]).toList 2 = [7, 8] := by
  have h := C4_range_yields_indices 10 10 (by decide)
  exact ⟨⟨by rw [h.1.1]; rfl, h.1.2⟩, h.2.1 Nat [7, 8] 2 (by decide)⟩

/-- C5: advancing a step position never moves a base position that is
already at its end (the short final stride terminates without
dereferencing), and iterating step over a container view with stride k
of at least 1 yields exactly the elements at offsets 0, k, 2k, ...
strictly below the length, with no extra trailing element. -/
theorem C5_step_stride :
    (∀ (σ α : Type) (r : RangeM σ α) (k : Nat) (p : σ),
      r.equals p r.endPos = true → stepAdvancePos r k p = p) ∧
    (∀ (α : Type) [Inhabited α] (xs : List α) (k fuel : Nat),
      1 ≤ k → xs.length ≤ fuel →
      (stepRange (containerRange xs) k).toList fuel = takeEvery xs k) := by
  constructor
  · intro σ α r k p h
    exact stepAdvancePos_at_end r k p h
  · intro α inst xs k fuel hk hf
    have h0 : (stepRange (containerRange xs) k).toList fuel =
        (stepRange (containerRange xs) k).iterFrom fuel
          (min 0 xs.length) := by
      rw [Nat.min_eq_left (Nat.zero_le _)]
      rfl
    rw [h0, step_iterFrom_eq xs k fuel 0, takeEvery]
    exact takeEveryAux_stable xs k hk fuel xs.length 0 (by omega) (by omega)

/-- C5 witness: the six-element sequence 0..5 stepped by 4 yields exactly
the elements at offsets 0 and 4, the final remainder of two elements
yielding nothing, and a step advance from the end offset 6 stays at 6. -/
theorem C5_witness :
    (stepRange (containerRange [0, 1, 2, 3, 4, 5]) 4).toList 6 = [0, 4] ∧
    stepAdvancePos (containerRange [0, 1, 2, 3, 4, 5]) 4 6 = 6 := by
  constructor
  · rw [C5_step_stride.2 Nat [0, 1, 2, 3, 4, 5] 4 6 (by decide) (by decide)]
    rfl
  · exact C5_step_stride.1 Nat Nat (containerRange [0, 1, 2, 3, 4, 5]) 4 6
      (by decide)

/-- C6: constructing step(base_range, stride) with stride below 1 fails
immediately with the InvalidArgument error kind, and with stride at least
1 it succeeds, returning the step range. -/
theorem C6_step_invalid_argument :
    ∀ (σ α : Type) (r : RangeM σ α) (stride : Int),
      (stride < 1 → step r stride =
        Except.error RangeError.invalidArgument) ∧
      (1 ≤ stride → step r stride =
        Except.ok (stepRange r stride.toNat)) := by
  intro σ α r stride
  constructor
  · intro h
    simp [step, h]
  · intro h
    have h' : ¬ stride < 1 := by omega
    simp [step, h']

/-- C6 witness: stride 0 on range(5) is rejected with InvalidArgument and
stride 2 is accepted. -/
theorem C6_witness :
    step (range 5) 0 = Except.error RangeError.invalidArgument ∧
    step (range 5) 2 = Except.ok (stepRange (range 5) 2) :=
  ⟨(C6_step_invalid_argument Nat Nat (range 5) 0).1 (by decide),
    (C6_step_invalid_argument Nat Nat (range 5) 2).2 (by decide)⟩

/-- C7: the Any Range built by make_any_range, iterated through its own
(erased) Iteration Protocol, yields exactly the element sequence of the
concrete range it boxes, and it composes further: transforming the erased
handle traverses as transforming the concrete range does. -/
theorem C7_any_range_transparent :
    ∀ (σ α : Type) (r : RangeM σ α) (fuel : Nat),
      (make_any_range r).toList fuel = r.toList fuel ∧
      (∀ (β : Type) (f : α → β) (f₂ : Nat),
        (transform (make_any_range r).toRange f).toList f₂ =
          (transform r f).toList f₂) :=
  fun _ _ _ _ => ⟨rfl, fun _ _ _ => rfl⟩

/-- C8: enumerating a mutable sequence and writing upd index element
through the reference in the second tuple field leaves the sequence with
element m replaced by upd m (original element m) for every offset m, and
touches no other element. -/
theorem C8_enumerate_mutation :
    ∀ (α : Type) [Inhabited α] (upd : Nat → α → α) (xs : List α)
      (fuel : Nat), xs.length ≤ fuel →
      enumMutate upd xs fuel =
        (List.range xs.length).map (fun m => upd m (xs.getD m default)) := by
  intro α inst upd xs fuel h
  show enumMutateFrom upd (distance (containerRange xs) fuel) xs.length fuel
    (0, 0) xs = _
  rw [distance_container xs fuel h]
  rw [enumMutateFrom_eq upd xs.length fuel 0 xs rfl (by omega) (by omega)]
  apply List.map_congr_left
  intro m _
  simp

/-- C8 witness: rewriting each string of the three-element sequence of
test_modifying_enumerate through the paired reference leaves the original
sequence holding the three rewritten strings. -/
theorem C8_witness :
    enumMutate (fun i s => toString i ++ " : " ++ s)
        ["zero", "one", "two"] 3 =
      ["0 : zero", "1 : one", "2 : two"] := by
  rw [C8_enumerate_mutation String (fun i s => toString i ++ " : " ++ s)
    ["zero", "one", "two"] 3 (by decide)]
  rfl

/-- C9: a transform of a transform traverses exactly as the single
transform by the composed function, for every pure function pair, and
dereference applies the stored functions to the base element afresh at
every position, with no caching. -/
theorem C9_transform_compose :
    ∀ (σ α β γ : Type) (r : RangeM σ α) (f : α → β) (g : β → γ)
      (fuel : Nat),
      (transform (transform r f) g).toList fuel =
        (transform r (g ∘ f)).toList fuel ∧
      (∀ p : σ, (transform (transform r f) g).deref p = g (f (r.deref p))) :=
  fun _ _ _ _ _ _ _ _ => ⟨rfl, fun _ => rfl⟩

/-- C10: on an input range whose begin position equals its end position,
the eagerly computed distance is 0 and enumerate yields no pairs at all. -/
theorem C10_enumerate_empty :
    ∀ (σ α : Type) (r : RangeM σ α) (f₁ f₂ : Nat),
      r.equals r.startPos r.endPos = true →
      distance r f₁ = 0 ∧ (enumerate r f₁).toList f₂ = [] := by
  intro σ α r f₁ f₂ h
  refine ⟨distance_of_empty r f₁ h, ?_⟩
  cases f₂ with
  | zero => rfl
  | succ f₂ =>
    have hcond : (enumerate r f₁).equals (enumerate r f₁).startPos
        (enumerate r f₁).endPos = true := by
      show ((range (distance r f₁)).equals (range (distance r f₁)).startPos
        (range (distance r f₁)).endPos || r.equals r.startPos r.endPos) = true
      rw [h, Bool.or_true]
    show (enumerate r f₁).iterFrom (f₂ + 1) (enumerate r f₁).startPos = []
    simp only [RangeM.iterFrom, hcond, if_true]

/-- C10 witness: enumerating the empty container view yields no pairs and
its eager size is 0. -/
theorem C10_witness :
    distance (const_range ([] : List Nat)) 1 = 0 ∧
    (enumerate (const_range ([] : List Nat)) 1).toList 1 = [] :=
  C10_enumerate_empty Nat Nat (const_range ([] : List Nat)) 1 1 (by decide)
